import Mathlib

/-!
Shallow embedding of the StickyRolo metadata parser and context extractor
(src/Code.js) together with proofs about its behaviour.

JavaScript strings are modelled by Lean strings; the JS string library
functions used by the source (trim, includes, startsWith, split, join) are
modelled by explicit functions over the character list of a string.  JS
objects used as string-keyed maps are modelled by insertion-ordered
association lists: assigning to an existing key updates the value in place,
assigning to a fresh key appends at the end, which matches the enumeration
order of string-keyed JS objects for the keys this program builds.
-/

set_option autoImplicit false

namespace StickyRolo

/-! ### JS string library model -/

/-- Model of JS trim on the character list of a string: remove leading and
trailing whitespace characters. -/
def trimChars (l : List Char) : List Char :=
  ((l.dropWhile Char.isWhitespace).reverse.dropWhile Char.isWhitespace).reverse

/-- Model of JS trim on strings. -/
def jsTrim (s : String) : String :=
  String.mk (trimChars s.data)

/-- Model of JS startsWith for a one-character pattern: the source only uses
startsWith with the underscore character. -/
def startsWithUnderscore (s : String) : Bool :=
  s.data.head? = some '_'

/-- Model of JS split on a one-character separator: the source only splits on
the colon character.  JS split of a string with no separator occurrence
yields the one-element list holding the whole string. -/
def splitChars (c : Char) : List Char → List (List Char)
  | [] => [[]]
  | x :: xs =>
    if x = c then [] :: splitChars c xs
    else
      match splitChars c xs with
      | [] => [[x]]
      | h :: t => (x :: h) :: t

/-- Model of JS Array.prototype.join with a one-character separator. -/
def joinChars (c : Char) : List (List Char) → List Char
  | [] => []
  | [h] => h
  | h :: h₂ :: t => h ++ c :: joinChars c (h₂ :: t)

/-- Model of JS Array.prototype.join with a string separator
(empty array joins to the empty string). -/
def jsJoin (sep : String) : List String → String
  | [] => ""
  | [s] => s
  | s :: s₂ :: rest => s ++ sep ++ jsJoin sep (s₂ :: rest)

/-! ### Data model -/

/-- One normalized line of document content, as produced by the line
extraction step of parseBodyContent: trimmed text, the named style type,
and the resolved image reference if the paragraph carries one. -/
structure Block where
  text : String
  style : String
  imageUrl : Option String
deriving DecidableEq, Repr

/-- One parsed metadata record. -/
structure Entry where
  description : String
  properties : List (String × String)
  category : String
  imageUrl : Option String
deriving DecidableEq, Repr

/-- The metadata map: a string-keyed JS object modelled as an
insertion-ordered association list (JS objects never hold duplicate keys). -/
abbrev Metadata := List (String × Entry)

/-- Model of JS object property read. -/
def objGet {α : Type} (m : List (String × α)) (k : String) : Option α :=
  (m.find? (fun p => p.1 == k)).map (fun p => p.2)

/-- Model of JS object property assignment: an existing key keeps its
position and gets the new value, a fresh key is appended at the end. -/
def objSet {α : Type} (m : List (String × α)) (k : String) (v : α) : List (String × α) :=
  if m.any (fun p => p.1 == k) then
    m.map (fun p => if p.1 = k then (k, v) else p)
  else
    m ++ [(k, v)]

/-! ### Buffer-to-entry conversion (processBuffer) -/

/-- The leading-padding discard loop of processBuffer: shift off leading
blocks whose text is empty and that carry no image. -/
def dropLeadingPad : List Block → List Block
  | [] => []
  | b :: rest =>
    if b.text = "" ∧ b.imageUrl = none then dropLeadingPad rest else b :: rest

/-- The description extraction of processBuffer, applied to the blocks after
the name block: the second block's text becomes the description when it
contains no colon and does not start with an underscore. -/
def descOf : List Block → String
  | [] => ""
  | b1 :: _ =>
    if ¬ b1.text.data.contains ':' ∧ ¬ startsWithUnderscore b1.text then b1.text else ""

/-- The per-line property parse of processBuffer: a line containing a colon
is split on every colon, the first part trimmed is the key, the remaining
parts re-joined with colons and trimmed are the value; the pair counts only
when both are non-empty. -/
def parseProp (line : String) : Option (String × String) :=
  if line.data.contains ':' then
    match splitChars ':' line.data with
    | [] => none
    | p0 :: restParts =>
      let key := String.mk (trimChars p0)
      let val := String.mk (trimChars (joinChars ':' restParts))
      if key ≠ "" ∧ val ≠ "" then some (key, val) else none
  else none

/-- One property-scan step: record the parsed key/value pair, a later
duplicate key overwriting the earlier value. -/
def propStep (props : List (String × String)) (b : Block) : List (String × String) :=
  match parseProp b.text with
  | some (k, v) => objSet props k v
  | none => props

/-- The property/image scan loop of processBuffer over the blocks after the
name (and description) block: each block is first checked for an image when
none was found yet, then a block whose text starts with an underscore stops
the loop, otherwise its text is parsed as a property line. -/
def scanLoop : List Block → List (String × String) → Option String →
    List (String × String) × Option String
  | [], props, img => (props, img)
  | b :: rest, props, img =>
    let img2 := if img = none ∧ b.imageUrl ≠ none then b.imageUrl else img
    if startsWithUnderscore b.text then (props, img2)
    else scanLoop rest (propStep props b) img2

/-- processBuffer: convert a buffered run of blocks into at most one metadata
entry, keyed by the first remaining block's text. -/
def processBuffer (metadata : Metadata) (buf : List Block) (pathStr : String) : Metadata :=
  match dropLeadingPad buf with
  | [] => metadata
  | b0 :: rest =>
    let name := b0.text
    let description := descOf rest
    let img0 : Option String := b0.imageUrl
    let img1 : Option String :=
      if img0 = none then
        match rest with
        | [] => none
        | b1 :: _ => b1.imageUrl
      else img0
    let scanBlocks := if description ≠ "" then rest.tail else rest
    let res := scanLoop scanBlocks [] img1
    if name ≠ "" then
      objSet metadata name ⟨description, res.1, pathStr, res.2⟩
    else metadata

/-! ### The heading-aware line loop -/

/-- The heading regex of the source: a style string matches HEADING followed
by an underscore and a single digit, whose value is the level. -/
def headingLevel (style : String) : Option Nat :=
  match style.data with
  | ['H', 'E', 'A', 'D', 'I', 'N', 'G', '_', d] =>
    if d.isDigit then some (d.toNat - 48) else none
  | _ => none

/-- The mutable parse state of parseBodyContent. -/
structure ParseState where
  metadata : Metadata
  buffer : List Block
  headingStack : List String
  currentPath : String
deriving Repr

/-- One iteration of the line loop of parseBodyContent.  JS array holes
created by assigning past the end of headingStack are modelled as empty
strings, which join identically; the JS slice with end index -1 produced by
a (never occurring in real documents) HEADING_0 style is modelled by
dropLast, and the corresponding index -1 assignment, which is not an array
element write, followed by a length-0 truncation leaves an empty stack. -/
def lineStep (st : ParseState) (b : Block) : ParseState :=
  match headingLevel b.style with
  | some level =>
    let md := if st.buffer ≠ [] then processBuffer st.metadata st.buffer st.currentPath
              else st.metadata
    let parentPath :=
      if level = 0 then jsJoin " > " st.headingStack.dropLast
      else jsJoin " > " (st.headingStack.take (level - 1))
    let newStack :=
      if level = 0 then []
      else ((st.headingStack ++ List.replicate level "").take (level - 1)) ++ [b.text]
    { metadata := md, buffer := [b], headingStack := newStack, currentPath := parentPath }
  | none =>
    if b.text = "" ∧ b.imageUrl = none then
      let md := if st.buffer ≠ [] then processBuffer st.metadata st.buffer st.currentPath
                else st.metadata
      { metadata := md, buffer := [], headingStack := st.headingStack,
        currentPath := jsJoin " > " st.headingStack }
    else
      let path := if st.buffer = [] then jsJoin " > " st.headingStack else st.currentPath
      { metadata := st.metadata, buffer := st.buffer ++ [b], headingStack := st.headingStack,
        currentPath := path }

/-- The line loop of parseBodyContent followed by the final flush, without
the description backfill pass. -/
def parseLines (blocks : List Block) : Metadata :=
  let st := blocks.foldl lineStep ⟨[], [], [], ""⟩
  if st.buffer ≠ [] then processBuffer st.metadata st.buffer st.currentPath else st.metadata

/-! ### Description backfill pass -/

/-- The emptiness test of the backfill pass: a falsy (empty) description or
one that trims to the empty string. -/
def descEmpty (d : String) : Bool :=
  d == "" || jsTrim d == ""

/-- The expected category string of immediate children of an entry. -/
def expectedChildCategory (category name : String) : String :=
  if category ≠ "" then category ++ " > " ++ name else name

/-- The names, in map order, of the entries whose category equals the given
string (the child collection loop of the backfill pass). -/
def filtNames (md : Metadata) (c : String) : List String :=
  (md.filter (fun p => p.2.category == c)).map (fun p => p.1)

/-- One iteration of the backfill pass for one parent name.  The none case
of the lookup cannot arise for names drawn from the map's own key list. -/
def backfillStep (md : Metadata) (parentName : String) : Metadata :=
  match objGet md parentName with
  | none => md
  | some item =>
    if descEmpty item.description then
      let expected := expectedChildCategory item.category parentName
      let children := filtNames md expected
      if children ≠ [] then
        objSet md parentName { item with description := "Entries: " ++ jsJoin ", " children }
      else md
    else md

/-- The description backfill pass: iterate over the snapshot of the map's
keys, filling empty descriptions with the joined names of child entries. -/
def backfill (md : Metadata) : Metadata :=
  (md.map (fun p => p.1)).foldl backfillStep md

/-- parseBodyContent restricted to its core contract: a sequence of
normalized blocks in, the backfilled metadata map out. -/
def parseBodyContent (blocks : List Block) : Metadata :=
  backfill (parseLines blocks)

/-! ### Context window extractor (getCurrentContext) -/

/-- The result of one sibling walk of getCurrentContext: the accumulated
text, the count of non-empty siblings collected, and the number of sibling
traversal steps taken. -/
structure WalkResult where
  text : String
  count : Nat
  steps : Nat
deriving DecidableEq, Repr

/-- The non-emptiness test of the sibling walks: the trimmed text has
positive length. -/
def keepTxt (t : String) : Bool :=
  0 < (jsTrim t).length

/-- The backward sibling walk of getCurrentContext.  The sibling chain
reachable through getPreviousSibling is modelled as the list of sibling
texts in traversal order (nearest first); a walk prepends each non-empty
text with a separating space, counting only non-empty texts against the
limit, and stops when the limit is reached, the chain ends, or the safety
counter reaches 100. -/
def lookBack (sibs : List String) (limit count safety : Nat) (acc : String) : WalkResult :=
  if count < limit ∧ safety < 100 then
    match sibs with
    | [] => ⟨acc, count, safety⟩
    | txt :: rest =>
      if keepTxt txt then
        lookBack rest limit (count + 1) (safety + 1) (txt ++ " " ++ acc)
      else
        lookBack rest limit count (safety + 1) acc
  else ⟨acc, count, safety⟩

/-- The forward sibling walk of getCurrentContext, appending instead of
prepending. -/
def lookFwd (sibs : List String) (limit count safety : Nat) (acc : String) : WalkResult :=
  if count < limit ∧ safety < 100 then
    match sibs with
    | [] => ⟨acc, count, safety⟩
    | txt :: rest =>
      if keepTxt txt then
        lookFwd rest limit (count + 1) (safety + 1) (acc ++ " " ++ txt)
      else
        lookFwd rest limit count (safety + 1) acc
  else ⟨acc, count, safety⟩

/-- The element kinds getCurrentContext distinguishes. -/
inductive ElemKind where
  | paragraph
  | listItem
  | textChild
  | otherKind
deriving DecidableEq, Repr

/-- A host document element as seen by getCurrentContext: its own kind and
text plus the parent chain (nearest ancestor first), each ancestor given by
kind and text. -/
structure DElement where
  kind : ElemKind
  text : String
  ancestors : List (ElemKind × String)
deriving DecidableEq, Repr

/-- The getBlockParent walk over a kind/text chain: the first element that
is a paragraph or a list item. -/
def blockParentChain : List (ElemKind × String) → Option (ElemKind × String)
  | [] => none
  | (k, t) :: rest =>
    if k = ElemKind.paragraph ∨ k = ElemKind.listItem then some (k, t)
    else blockParentChain rest

/-- getBlockParent applied to an element: walk from the element itself up
through its ancestors. -/
def DElement.getBlockParent (e : DElement) : Option (ElemKind × String) :=
  blockParentChain ((e.kind, e.text) :: e.ancestors)

/-- getTextSafe: the text of a paragraph or list-item block, the empty
string for a null or other element. -/
def getTextSafe : Option (ElemKind × String) → String
  | none => ""
  | some (k, t) => if k = ElemKind.paragraph ∨ k = ElemKind.listItem then t else ""

/-- The core-text accumulation step of the selection branch: paragraph,
list-item and text elements contribute their text followed by a space. -/
def rangeElemText (acc : String) (e : DElement) : String :=
  if e.kind = ElemKind.paragraph then acc ++ e.text ++ " "
  else if e.kind = ElemKind.listItem then acc ++ e.text ++ " "
  else if e.kind = ElemKind.textChild then acc ++ e.text ++ " "
  else acc

/-- The position-resolution step of getCurrentContext (its step 1): from the
optional selection (its range elements) and the optional cursor (its
element), produce the core text, the start block and the end block.  The
selection branch runs whenever a selection exists; the cursor branch runs
only otherwise. -/
def resolvePosition (selection : Option (List DElement)) (cursor : Option DElement) :
    String × Option (ElemKind × String) × Option (ElemKind × String) :=
  match selection with
  | some els =>
    let startB := match els with | [] => none | e :: _ => e.getBlockParent
    let endB := match els.getLast? with | none => none | some e => e.getBlockParent
    let core := els.foldl rangeElemText ""
    (core, startB, endB)
  | none =>
    match cursor with
    | some c =>
      let sb := c.getBlockParent
      (getTextSafe sb, sb, sb)
    | none => ("", none, none)

/-! ### Claim-side characterizations

The following definitions restate, in the claims' own words, the image
resolution policy of processBuffer; they are compared against the source
embedding above. -/

/-- The first non-null image reference among a list of blocks. -/
def firstImage : List Block → Option String
  | [] => none
  | b :: rest => if b.imageUrl ≠ none then b.imageUrl else firstImage rest

/-- The property-scan blocks up to and including the first stop-marker
block (the block whose text starts with an underscore). -/
def stopScanTake : List Block → List Block
  | [] => []
  | b :: rest =>
    if startsWithUnderscore b.text then [b] else b :: stopScanTake rest

/-- Image resolution exactly as claim C4 states it: scan the first block,
then (only if a description block was consumed) the second block, then the
property-scan blocks in order, where a block whose text starts with an
underscore stops the scan entirely and is not itself checked for an image;
the first image found wins. -/
def claimImageOrig (b0 : Block) (rest : List Block) : Option String :=
  firstImage ([b0] ++ (if descOf rest ≠ "" then rest.take 1 else [])
    ++ ((if descOf rest ≠ "" then rest.tail else rest).takeWhile
          (fun b => ¬ startsWithUnderscore b.text)))

/-- Image resolution as claim C4 must be amended: identical to the claim's
scan order except that a stop-marker block is itself still checked for an
image before it halts the scan. -/
def claimImage (b0 : Block) (rest : List Block) : Option String :=
  firstImage ([b0] ++ (if descOf rest ≠ "" then rest.take 1 else [])
    ++ stopScanTake (if descOf rest ≠ "" then rest.tail else rest))

/-! ### Association-list lemmas -/

section ObjLemmas

variable {α : Type}

theorem objGet_cons (k₁ : String) (v₁ : α) (m : List (String × α)) (k : String) :
    objGet ((k₁, v₁) :: m) k = if k₁ = k then some v₁ else objGet m k := by
  by_cases h : k₁ = k <;> simp [objGet, List.find?_cons, h]

theorem objGet_eq_some_mem {m : List (String × α)} {k : String} {v : α}
    (h : objGet m k = some v) : (k, v) ∈ m := by
  induction m with
  | nil => simp [objGet] at h
  | cons p rest ih =>
    rcases p with ⟨k₁, v₁⟩
    rw [objGet_cons] at h
    by_cases hk : k₁ = k
    · simp [hk] at h
      simp [hk, h]
    · simp [hk] at h
      exact List.mem_cons_of_mem _ (ih h)

theorem objGet_isSome_of_mem_keys {m : List (String × α)} {k : String}
    (h : k ∈ m.map (fun p => p.1)) : ∃ v, objGet m k = some v := by
  induction m with
  | nil => simp at h
  | cons p rest ih =>
    rcases p with ⟨k₁, v₁⟩
    rw [List.map_cons, List.mem_cons] at h
    by_cases hk : k₁ = k
    · exact ⟨v₁, by simp [objGet_cons, hk]⟩
    · rcases h with h | h
      · exact absurd h.symm hk
      · rcases ih h with ⟨v, hv⟩
        exact ⟨v, by simp [objGet_cons, hk, hv]⟩

theorem objGet_eq_none_of_not_mem {m : List (String × α)} {k : String}
    (h : k ∉ m.map (fun p => p.1)) : objGet m k = none := by
  induction m with
  | nil => rfl
  | cons p rest ih =>
    rcases p with ⟨k₁, v₁⟩
    rw [List.map_cons, List.mem_cons] at h
    push_neg at h
    rw [objGet_cons, if_neg (fun he => h.1 he.symm)]
    exact ih h.2

theorem mem_keys_of_objGet_eq_some {m : List (String × α)} {k : String} {v : α}
    (h : objGet m k = some v) : k ∈ m.map (fun p => p.1) := by
  have := objGet_eq_some_mem h
  exact List.mem_map.mpr ⟨(k, v), this, rfl⟩

theorem objGet_eq_some_of_mem_nodup {m : List (String × α)} {k : String} {v : α}
    (hmem : (k, v) ∈ m) (hnd : (m.map (fun p => p.1)).Nodup) : objGet m k = some v := by
  induction m with
  | nil => simp at hmem
  | cons p rest ih =>
    rcases p with ⟨k₁, v₁⟩
    rw [List.map_cons, List.nodup_cons] at hnd
    rcases List.mem_cons.mp hmem with h | h
    · rw [Prod.mk.injEq] at h
      rw [objGet_cons, if_pos h.1.symm, h.2]
    · have hk : k₁ ≠ k := by
        intro he
        exact hnd.1 (he ▸ List.mem_map.mpr ⟨(k, v), h, rfl⟩)
      rw [objGet_cons, if_neg hk]
      exact ih h hnd.2

theorem any_keys_iff_mem {m : List (String × α)} {k : String} :
    m.any (fun p => p.1 == k) = true ↔ k ∈ m.map (fun p => p.1) := by
  constructor
  · intro h
    rcases List.any_eq_true.mp h with ⟨p, hp, he⟩
    exact List.mem_map.mpr ⟨p, hp, beq_iff_eq.mp he⟩
  · intro h
    rcases List.mem_map.mp h with ⟨p, hp, he⟩
    exact List.any_eq_true.mpr ⟨p, hp, beq_iff_eq.mpr he⟩

theorem objSet_of_mem {m : List (String × α)} {k : String} (v : α)
    (h : k ∈ m.map (fun p => p.1)) :
    objSet m k v = m.map (fun p => if p.1 = k then (k, v) else p) := by
  rw [objSet, if_pos (any_keys_iff_mem.mpr h)]

theorem objSet_of_not_mem {m : List (String × α)} {k : String} (v : α)
    (h : k ∉ m.map (fun p => p.1)) :
    objSet m k v = m ++ [(k, v)] := by
  rw [objSet, if_neg (fun hc => h (any_keys_iff_mem.mp hc))]

theorem objSet_keys_of_mem {m : List (String × α)} {k : String} (v : α)
    (h : k ∈ m.map (fun p => p.1)) :
    (objSet m k v).map (fun p => p.1) = m.map (fun p => p.1) := by
  rw [objSet_of_mem v h, List.map_map]
  apply List.map_congr_left
  intro p _
  by_cases hp : p.1 = k <;> simp [hp]

theorem objSet_keys_of_not_mem {m : List (String × α)} {k : String} (v : α)
    (h : k ∉ m.map (fun p => p.1)) :
    (objSet m k v).map (fun p => p.1) = m.map (fun p => p.1) ++ [k] := by
  rw [objSet_of_not_mem v h]
  simp

theorem objGet_append_left {m m' : List (String × α)} {k : String}
    (h : k ∉ m.map (fun p => p.1)) : objGet (m ++ m') k = objGet m' k := by
  induction m with
  | nil => rfl
  | cons p rest ih =>
    rcases p with ⟨k₁, v₁⟩
    rw [List.map_cons, List.mem_cons] at h
    push_neg at h
    rw [List.cons_append, objGet_cons, if_neg (fun he => h.1 he.symm)]
    exact ih h.2

theorem objGet_append_of_mem {m m' : List (String × α)} {k : String}
    (h : k ∈ m.map (fun p => p.1)) : objGet (m ++ m') k = objGet m k := by
  induction m with
  | nil => simp at h
  | cons p rest ih =>
    rcases p with ⟨k₁, v₁⟩
    rw [List.cons_append, objGet_cons, objGet_cons]
    by_cases hk : k₁ = k
    · rw [if_pos hk, if_pos hk]
    · rw [if_neg hk, if_neg hk]
      rw [List.map_cons, List.mem_cons] at h
      rcases h with h | h
      · exact absurd h.symm hk
      · exact ih h

theorem objGet_map_repl_self {m : List (String × α)} {k : String} (v : α)
    (h : k ∈ m.map (fun p => p.1)) :
    objGet (m.map (fun p => if p.1 = k then (k, v) else p)) k = some v := by
  induction m with
  | nil => simp at h
  | cons p rest ih =>
    rcases p with ⟨k₁, v₁⟩
    have hrepl : (if (k₁, v₁).1 = k then (k, v) else (k₁, v₁))
        = if k₁ = k then (k, v) else (k₁, v₁) := rfl
    rw [List.map_cons, hrepl]
    by_cases hk : k₁ = k
    · rw [if_pos hk, objGet_cons, if_pos rfl]
    · rw [if_neg hk, objGet_cons, if_neg hk]
      rw [List.map_cons, List.mem_cons] at h
      rcases h with h | h
      · exact absurd h.symm hk
      · exact ih h

theorem objGet_map_repl_ne {m : List (String × α)} {k k' : String} (v : α)
    (h : k' ≠ k) :
    objGet (m.map (fun p => if p.1 = k then (k, v) else p)) k' = objGet m k' := by
  induction m with
  | nil => rfl
  | cons p rest ih =>
    rcases p with ⟨k₁, v₁⟩
    have hrepl : (if (k₁, v₁).1 = k then (k, v) else (k₁, v₁))
        = if k₁ = k then (k, v) else (k₁, v₁) := rfl
    rw [List.map_cons, hrepl]
    by_cases hk : k₁ = k
    · rw [if_pos hk, objGet_cons, objGet_cons, if_neg (fun he => h he.symm),
        if_neg (fun he => h (he.symm.trans hk))]
      exact ih
    · rw [if_neg hk, objGet_cons, objGet_cons]
      by_cases hq : k₁ = k'
      · rw [if_pos hq, if_pos hq]
      · rw [if_neg hq, if_neg hq]
        exact ih

theorem objGet_objSet_self (m : List (String × α)) (k : String) (v : α) :
    objGet (objSet m k v) k = some v := by
  by_cases h : k ∈ m.map (fun p => p.1)
  · rw [objSet_of_mem v h]
    exact objGet_map_repl_self v h
  · rw [objSet_of_not_mem v h, objGet_append_left h, objGet_cons, if_pos rfl]

theorem objGet_objSet_ne (m : List (String × α)) (k k' : String) (v : α)
    (h : k' ≠ k) : objGet (objSet m k v) k' = objGet m k' := by
  by_cases hm : k ∈ m.map (fun p => p.1)
  · rw [objSet_of_mem v hm]
    exact objGet_map_repl_ne v h
  · rw [objSet_of_not_mem v hm]
    by_cases hk' : k' ∈ m.map (fun p => p.1)
    · exact objGet_append_of_mem hk'
    · rw [objGet_append_left hk', objGet_cons, if_neg (fun he => h he.symm),
        objGet_eq_none_of_not_mem hk']
      rfl

end ObjLemmas

/-! ### String lemmas -/

theorem trimChars_ne_nil {l : List Char} {x : Char} (hx : x ∈ l)
    (hw : x.isWhitespace = false) : trimChars l ≠ [] := by
  intro h
  rw [trimChars, List.reverse_eq_nil_iff, List.dropWhile_eq_nil_iff] at h
  have hx2 : x ∈ l.takeWhile Char.isWhitespace ++ l.dropWhile Char.isWhitespace := by
    rw [List.takeWhile_append_dropWhile]
    exact hx
  rcases List.mem_append.mp hx2 with h2 | h2
  · have := List.mem_takeWhile_imp h2
    simp [this] at hw
  · have := h x (List.mem_reverse.mpr h2)
    simp [this] at hw

theorem jsTrim_eq_empty_iff {s : String} : jsTrim s = "" ↔ trimChars s.data = [] := by
  rw [jsTrim]
  constructor
  · intro h
    have := congrArg String.data h
    simpa using this
  · intro h
    rw [h]

/-- A description starting with the word Entries is never considered empty
by the backfill pass. -/
theorem descEmpty_entries (s : String) : descEmpty ("Entries: " ++ s) = false := by
  have hE : 'E' ∈ ("Entries: " ++ s).data := by
    rw [String.data_append]
    exact List.mem_append.mpr (Or.inl (by decide))
  have h1 : ("Entries: " ++ s) ≠ "" := by
    intro h
    rw [h] at hE
    simp at hE
  have h2 : jsTrim ("Entries: " ++ s) ≠ "" := by
    intro h
    exact trimChars_ne_nil hE (by decide) (jsTrim_eq_empty_iff.mp h)
  simp [descEmpty, h1, h2]

/-! ### Split/join lemmas (the first-colon property parsing) -/

theorem splitChars_ne_nil (c : Char) (l : List Char) : splitChars c l ≠ [] := by
  cases l with
  | nil => simp [splitChars]
  | cons x xs =>
    rw [splitChars]
    by_cases h : x = c
    · simp [h]
    · rw [if_neg h]
      rcases hS : splitChars c xs with _ | ⟨hd, tl⟩
      · exact absurd hS (splitChars_ne_nil c xs)
      · simp

theorem joinChars_splitChars (c : Char) (l : List Char) :
    joinChars c (splitChars c l) = l := by
  induction l with
  | nil => rfl
  | cons x xs ih =>
    rw [splitChars]
    by_cases h : x = c
    · rw [if_pos h]
      rcases hS : splitChars c xs with _ | ⟨hd, tl⟩
      · exact absurd hS (splitChars_ne_nil c xs)
      · rw [joinChars, ← hS, ih, List.nil_append, h]
    · rw [if_neg h]
      rcases hS : splitChars c xs with _ | ⟨hd, tl⟩
      · exact absurd hS (splitChars_ne_nil c xs)
      · rw [hS] at ih
        cases tl with
        | nil =>
          rw [joinChars] at ih ⊢
          rw [ih]
        | cons hd₂ tl₂ =>
          rw [joinChars] at ih ⊢
          rw [List.cons_append, ih]

theorem splitChars_head (c : Char) (l : List Char) :
    (splitChars c l).head? = some (l.takeWhile (fun x => x != c)) := by
  induction l with
  | nil => rfl
  | cons x xs ih =>
    rw [splitChars]
    by_cases h : x = c
    · rw [if_pos h, List.takeWhile_cons]
      simp [h]
    · rw [if_neg h, List.takeWhile_cons]
      rcases hS : splitChars c xs with _ | ⟨hd, tl⟩
      · exact absurd hS (splitChars_ne_nil c xs)
      · rw [hS] at ih
        simp only [List.head?_cons, Option.some.injEq] at ih
        simp [h, ih]

theorem joinChars_splitChars_tail (c : Char) (l : List Char) (hc : c ∈ l) :
    joinChars c (splitChars c l).tail = (l.dropWhile (fun x => x != c)).tail := by
  induction l with
  | nil => simp at hc
  | cons x xs ih =>
    rw [splitChars]
    by_cases h : x = c
    · rw [if_pos h, List.tail_cons, joinChars_splitChars, List.dropWhile_cons]
      simp [h]
    · rw [if_neg h]
      have hc2 : c ∈ xs := by
        rcases List.mem_cons.mp hc with he | he
        · exact absurd he.symm h
        · exact he
      rcases hS : splitChars c xs with _ | ⟨hd, tl⟩
      · exact absurd hS (splitChars_ne_nil c xs)
      · rw [hS] at ih
        rw [List.tail_cons, List.dropWhile_cons]
        simp only [bne_iff_ne, ne_eq, h, not_false_eq_true, if_true, decide_not]
        exact ih hc2

theorem contains_iff_mem {l : List Char} {c : Char} : l.contains c = true ↔ c ∈ l := by
  simp

/-! ### processBuffer lemmas -/

theorem dropLeadingPad_decomp (buf : List Block) :
    ∃ pad, buf = pad ++ dropLeadingPad buf ∧ ∀ b ∈ pad, b.text = "" ∧ b.imageUrl = none := by
  induction buf with
  | nil => exact ⟨[], rfl, by simp⟩
  | cons b rest ih =>
    by_cases h : b.text = "" ∧ b.imageUrl = none
    · rcases ih with ⟨pad, he, hall⟩
      refine ⟨b :: pad, ?_, ?_⟩
      · rw [dropLeadingPad, if_pos h, List.cons_append, ← he]
      · intro x hx
        rcases List.mem_cons.mp hx with rfl | hx
        · exact h
        · exact hall x hx
    · exact ⟨[], by rw [dropLeadingPad, if_neg h, List.nil_append], by simp⟩

theorem dropLeadingPad_head {buf : List Block} {b0 : Block} {rest : List Block}
    (h : dropLeadingPad buf = b0 :: rest) : ¬ (b0.text = "" ∧ b0.imageUrl = none) := by
  induction buf with
  | nil => simp [dropLeadingPad] at h
  | cons b r ih =>
    rw [dropLeadingPad] at h
    by_cases hb : b.text = "" ∧ b.imageUrl = none
    · rw [if_pos hb] at h
      exact ih h
    · rw [if_neg hb] at h
      injection h with h1 h2
      rw [← h1]
      exact hb

/-- The buffer entry produced by processBuffer from the blocks remaining
after the leading-padding discard. -/
def bufEntry (b0 : Block) (rest : List Block) (p : String) : Entry :=
  let description := descOf rest
  let img1 : Option String :=
    if b0.imageUrl = none then
      match rest with
      | [] => none
      | b1 :: _ => b1.imageUrl
    else b0.imageUrl
  let scanBlocks := if description ≠ "" then rest.tail else rest
  let res := scanLoop scanBlocks [] img1
  ⟨description, res.1, p, res.2⟩

theorem processBuffer_nil (md : Metadata) (buf : List Block) (p : String)
    (h : dropLeadingPad buf = []) : processBuffer md buf p = md := by
  rw [processBuffer, h]

theorem processBuffer_eq (md : Metadata) (buf : List Block) (p : String)
    (b0 : Block) (rest : List Block) (h : dropLeadingPad buf = b0 :: rest) :
    processBuffer md buf p =
      if b0.text ≠ "" then objSet md b0.text (bufEntry b0 rest p) else md := by
  rw [processBuffer, h]
  rfl

theorem scanLoop_img (blocks : List Block) : ∀ (props : List (String × String))
    (img : Option String),
    (scanLoop blocks props img).2
      = match img with
        | some u => some u
        | none => firstImage (stopScanTake blocks) := by
  induction blocks with
  | nil =>
    intro props img
    cases img <;> simp [scanLoop, stopScanTake, firstImage]
  | cons b rest ih =>
    intro props img
    by_cases hstop : startsWithUnderscore b.text = true
    · cases img with
      | some u => simp [scanLoop, hstop]
      | none =>
        cases hb : b.imageUrl with
        | some i => simp [scanLoop, hstop, stopScanTake, firstImage, hb]
        | none => simp [scanLoop, hstop, stopScanTake, firstImage, hb]
    · cases img with
      | some u => simp [scanLoop, hstop, ih]
      | none =>
        cases hb : b.imageUrl with
        | some i => simp [scanLoop, hstop, stopScanTake, firstImage, hb, ih]
        | none => simp [scanLoop, hstop, stopScanTake, firstImage, hb, ih]

theorem scanLoop_props (blocks : List Block) : ∀ (props : List (String × String))
    (img : Option String),
    (scanLoop blocks props img).1
      = (blocks.takeWhile (fun b => !(startsWithUnderscore b.text))).foldl propStep props := by
  induction blocks with
  | nil =>
    intro props img
    rfl
  | cons b rest ih =>
    intro props img
    by_cases hstop : startsWithUnderscore b.text = true <;>
      simp [scanLoop, List.takeWhile_cons, hstop, ih]

theorem takeWhile_all_append {β : Type} (q : β → Bool) (pre : List β) (x : β) (post : List β)
    (hpre : ∀ b ∈ pre, q b = true) (hx : q x = false) :
    (pre ++ x :: post).takeWhile q = pre := by
  induction pre with
  | nil => simp [List.takeWhile_cons, hx]
  | cons a rest ih =>
    rw [List.cons_append, List.takeWhile_cons, hpre a (List.mem_cons_self a rest)]
    rw [ih (fun b hb => hpre b (List.mem_cons_of_mem a hb))]
    simp

/-! ### Sibling walk lemmas -/

theorem lookBack_spec (sibs : List String) : ∀ (limit count safety : Nat) (acc : String),
    safety ≤ (lookBack sibs limit count safety acc).steps
    ∧ (lookBack sibs limit count safety acc).steps ≤ safety + sibs.length
    ∧ (safety ≤ 100 → (lookBack sibs limit count safety acc).steps ≤ 100)
    ∧ (lookBack sibs limit count safety acc).count
        = count + ((sibs.take ((lookBack sibs limit count safety acc).steps - safety)).filter
            keepTxt).length
    ∧ (count ≤ limit → (lookBack sibs limit count safety acc).count ≤ limit)
    ∧ (lookBack sibs limit count safety acc).text
        = ((sibs.take ((lookBack sibs limit count safety acc).steps - safety)).filter
            keepTxt).foldl (fun a t => t ++ " " ++ a) acc := by
  induction sibs with
  | nil =>
    intro limit count safety acc
    have h : lookBack [] limit count safety acc = ⟨acc, count, safety⟩ := by
      rw [lookBack]
      split
      · rfl
      · rfl
    rw [h]
    simp
  | cons t rest ih =>
    intro limit count safety acc
    by_cases hcond : count < limit ∧ safety < 100
    · by_cases hk : keepTxt t = true
      · have h : lookBack (t :: rest) limit count safety acc
            = lookBack rest limit (count + 1) (safety + 1) (t ++ " " ++ acc) := by
          rw [lookBack, if_pos hcond, if_pos hk]
        obtain ⟨i1, i2, i3, i4, i5, i6⟩ := ih limit (count + 1) (safety + 1) (t ++ " " ++ acc)
        rw [h]
        have hsub : (lookBack rest limit (count + 1) (safety + 1) (t ++ " " ++ acc)).steps - safety
            = ((lookBack rest limit (count + 1) (safety + 1) (t ++ " " ++ acc)).steps
                - (safety + 1)) + 1 := by omega
        refine ⟨by omega, by simp only [List.length_cons]; omega,
          fun hs => i3 (by omega), ?_, fun hcl => i5 (by omega), ?_⟩
        · rw [hsub, List.take_succ_cons]
          simp only [List.filter_cons, hk, if_true, List.length_cons]
          omega
        · rw [hsub, List.take_succ_cons]
          simp only [List.filter_cons, hk, if_true, List.foldl_cons]
          exact i6
      · have h : lookBack (t :: rest) limit count safety acc
            = lookBack rest limit count (safety + 1) acc := by
          rw [lookBack, if_pos hcond, if_neg hk]
        obtain ⟨i1, i2, i3, i4, i5, i6⟩ := ih limit count (safety + 1) acc
        rw [h]
        have hsub : (lookBack rest limit count (safety + 1) acc).steps - safety
            = ((lookBack rest limit count (safety + 1) acc).steps - (safety + 1)) + 1 := by omega
        refine ⟨by omega, by simp only [List.length_cons]; omega,
          fun hs => i3 (by omega), ?_, fun hcl => i5 hcl, ?_⟩
        · rw [hsub, List.take_succ_cons]
          simp only [List.filter_cons, hk, if_false]
          exact i4
        · rw [hsub, List.take_succ_cons]
          simp only [List.filter_cons, hk, if_false]
          exact i6
    · have h : lookBack (t :: rest) limit count safety acc = ⟨acc, count, safety⟩ := by
        rw [lookBack, if_neg hcond]
      rw [h]
      simp

theorem lookFwd_spec (sibs : List String) : ∀ (limit count safety : Nat) (acc : String),
    safety ≤ (lookFwd sibs limit count safety acc).steps
    ∧ (lookFwd sibs limit count safety acc).steps ≤ safety + sibs.length
    ∧ (safety ≤ 100 → (lookFwd sibs limit count safety acc).steps ≤ 100)
    ∧ (lookFwd sibs limit count safety acc).count
        = count + ((sibs.take ((lookFwd sibs limit count safety acc).steps - safety)).filter
            keepTxt).length
    ∧ (count ≤ limit → (lookFwd sibs limit count safety acc).count ≤ limit)
    ∧ (lookFwd sibs limit count safety acc).text
        = ((sibs.take ((lookFwd sibs limit count safety acc).steps - safety)).filter
            keepTxt).foldl (fun a t => a ++ " " ++ t) acc := by
  induction sibs with
  | nil =>
    intro limit count safety acc
    have h : lookFwd [] limit count safety acc = ⟨acc, count, safety⟩ := by
      rw [lookFwd]
      split
      · rfl
      · rfl
    rw [h]
    simp
  | cons t rest ih =>
    intro limit count safety acc
    by_cases hcond : count < limit ∧ safety < 100
    · by_cases hk : keepTxt t = true
      · have h : lookFwd (t :: rest) limit count safety acc
            = lookFwd rest limit (count + 1) (safety + 1) (acc ++ " " ++ t) := by
          rw [lookFwd, if_pos hcond, if_pos hk]
        obtain ⟨i1, i2, i3, i4, i5, i6⟩ := ih limit (count + 1) (safety + 1) (acc ++ " " ++ t)
        rw [h]
        have hsub : (lookFwd rest limit (count + 1) (safety + 1) (acc ++ " " ++ t)).steps - safety
            = ((lookFwd rest limit (count + 1) (safety + 1) (acc ++ " " ++ t)).steps
                - (safety + 1)) + 1 := by omega
        refine ⟨by omega, by simp only [List.length_cons]; omega,
          fun hs => i3 (by omega), ?_, fun hcl => i5 (by omega), ?_⟩
        · rw [hsub, List.take_succ_cons]
          simp only [List.filter_cons, hk, if_true, List.length_cons]
          omega
        · rw [hsub, List.take_succ_cons]
          simp only [List.filter_cons, hk, if_true, List.foldl_cons]
          exact i6
      · have h : lookFwd (t :: rest) limit count safety acc
            = lookFwd rest limit count (safety + 1) acc := by
          rw [lookFwd, if_pos hcond, if_neg hk]
        obtain ⟨i1, i2, i3, i4, i5, i6⟩ := ih limit count (safety + 1) acc
        rw [h]
        have hsub : (lookFwd rest limit count (safety + 1) acc).steps - safety
            = ((lookFwd rest limit count (safety + 1) acc).steps - (safety + 1)) + 1 := by omega
        refine ⟨by omega, by simp only [List.length_cons]; omega,
          fun hs => i3 (by omega), ?_, fun hcl => i5 hcl, ?_⟩
        · rw [hsub, List.take_succ_cons]
          simp only [List.filter_cons, hk, if_false]
          exact i4
        · rw [hsub, List.take_succ_cons]
          simp only [List.filter_cons, hk, if_false]
          exact i6
    · have h : lookFwd (t :: rest) limit count safety acc = ⟨acc, count, safety⟩ := by
        rw [lookFwd, if_neg hcond]
      rw [h]
      simp

/-! ### Backfill pass lemmas -/

/-- The entry the backfill pass produces for a key, as a function of the
original map: the description is rewritten exactly when it is empty and the
child collection is non-empty. -/
def backfillResultEntry (md : Metadata) (k : String) (e : Entry) : Entry :=
  if descEmpty e.description = true
      ∧ filtNames md (expectedChildCategory e.category k) ≠ [] then
    { e with description :=
        "Entries: " ++ jsJoin ", " (filtNames md (expectedChildCategory e.category k)) }
  else e

theorem objGet_fst_of_mem_nodup {α : Type} {m : List (String × α)} {p : String × α}
    (hp : p ∈ m) (hnd : (m.map (fun q => q.1)).Nodup) : objGet m p.1 = some p.2 :=
  objGet_eq_some_of_mem_nodup (by rwa [Prod.mk.eta]) hnd

theorem filter_map_fst_congr (m : Metadata) (g : String × Entry → String × Entry)
    (hg : ∀ p ∈ m, (g p).1 = p.1 ∧ (g p).2.category = p.2.category) (c : String) :
    ((m.map g).filter (fun p => p.2.category == c)).map (fun p => p.1)
      = (m.filter (fun p => p.2.category == c)).map (fun p => p.1) := by
  induction m with
  | nil => rfl
  | cons p rest ih =>
    have hp := hg p (List.mem_cons_self p rest)
    have ihr := ih (fun q hq => hg q (List.mem_cons_of_mem p hq))
    rw [List.map_cons, List.filter_cons, List.filter_cons]
    have hcat : ((g p).2.category == c) = (p.2.category == c) := by rw [hp.2]
    rw [hcat]
    by_cases hc : (p.2.category == c) = true
    · rw [hc]
      simp only [if_true, List.map_cons]
      rw [hp.1, ihr]
    · simp only [Bool.not_eq_true] at hc
      rw [hc]
      simp only [Bool.false_eq_true, if_false]
      exact ihr

theorem filtNames_objSet (md : Metadata) (k : String) (e v : Entry)
    (hnd : (md.map (fun p => p.1)).Nodup)
    (hget : objGet md k = some e) (hcat : v.category = e.category) (c : String) :
    filtNames (objSet md k v) c = filtNames md c := by
  have hmem : k ∈ md.map (fun p => p.1) := mem_keys_of_objGet_eq_some hget
  rw [objSet_of_mem v hmem, filtNames, filtNames]
  apply filter_map_fst_congr
  intro p hp
  by_cases hpk : p.1 = k
  · have hpe : objGet md k = some p.2 := by
      rw [← hpk]
      exact objGet_fst_of_mem_nodup hp hnd
    have hpe2 : p.2 = e := by
      rw [hget] at hpe
      exact (Option.some.injEq _ _ ▸ hpe).symm
    constructor
    · simp [hpk]
    · simp [hpk, hcat, hpe2]
  · constructor
    · simp [hpk]
    · simp [hpk]

theorem backfill_loop (l : List String) : ∀ (done : List String) (md s : Metadata),
    (md.map (fun p => p.1)).Nodup →
    md.map (fun p => p.1) = done ++ l →
    s.map (fun p => p.1) = md.map (fun p => p.1) →
    (∀ c, filtNames s c = filtNames md c) →
    (∀ k, k ∈ l → objGet s k = objGet md k) →
    (∀ k, k ∈ done → objGet s k = (objGet md k).map (fun e => backfillResultEntry md k e)) →
    ((l.foldl backfillStep s).map (fun p => p.1) = md.map (fun p => p.1)
      ∧ (∀ c, filtNames (l.foldl backfillStep s) c = filtNames md c)
      ∧ (∀ k, k ∈ done ++ l →
          objGet (l.foldl backfillStep s) k
            = (objGet md k).map (fun e => backfillResultEntry md k e))) := by
  induction l with
  | nil =>
    intro done md s hnd hkeys hskeys hfilt hl hdone
    refine ⟨hskeys, hfilt, ?_⟩
    intro k hk
    rw [List.append_nil] at hk
    exact hdone k hk
  | cons k₀ rest ih =>
    intro done md s hnd hkeys hskeys hfilt hl hdone
    have hk₀mem : k₀ ∈ md.map (fun p => p.1) := by
      rw [hkeys]
      exact List.mem_append_right _ (List.mem_cons_self _ _)
    obtain ⟨e, he⟩ := objGet_isSome_of_mem_keys hk₀mem
    have hse : objGet s k₀ = some e := by rw [hl k₀ (List.mem_cons_self _ _), he]
    have hnd2 : (done ++ k₀ :: rest).Nodup := hkeys ▸ hnd
    have hk₀rest : k₀ ∉ rest := by
      have h2 := (List.nodup_append.mp hnd2).2.1
      exact (List.nodup_cons.mp h2).1
    have hk₀done : k₀ ∉ done := by
      have hdisj := (List.nodup_append.mp hnd2).2.2
      intro hc
      exact hdisj hc (List.mem_cons_self _ _)
    have hndS : (s.map (fun p => p.1)).Nodup := by rw [hskeys]; exact hnd
    have hstep : (backfillStep s k₀ = s ∧ backfillResultEntry md k₀ e = e)
        ∨ (backfillStep s k₀
              = objSet s k₀ { e with description :=
                  "Entries: " ++ jsJoin ", " (filtNames md (expectedChildCategory e.category k₀)) }
            ∧ backfillResultEntry md k₀ e
              = { e with description :=
                  "Entries: " ++ jsJoin ", " (filtNames md (expectedChildCategory e.category k₀)) }) := by
      simp only [backfillStep, hse]
      by_cases hde : descEmpty e.description = true
      · rw [if_pos hde]
        by_cases hch : filtNames s (expectedChildCategory e.category k₀) ≠ []
        · right
          constructor
          · rw [if_pos hch, hfilt]
          · rw [backfillResultEntry, if_pos ⟨hde, by rw [← hfilt]; exact hch⟩]
        · left
          constructor
          · rw [if_neg hch]
          · rw [backfillResultEntry, if_neg]
            intro hcon
            exact hch (by rw [hfilt]; exact hcon.2)
      · rw [if_neg hde]
        left
        exact ⟨rfl, by rw [backfillResultEntry, if_neg (fun hcon => hde hcon.1)]⟩
    rw [List.foldl_cons]
    have hdoneSplit : md.map (fun p => p.1) = (done ++ [k₀]) ++ rest := by
      rw [hkeys, List.append_assoc, List.singleton_append]
    rcases hstep with ⟨hs1, hbre⟩ | ⟨hs1, hbre⟩
    · rw [hs1]
      have hmain := ih (done ++ [k₀]) md s hnd hdoneSplit hskeys hfilt
        (fun k hk => hl k (List.mem_cons_of_mem _ hk))
        (fun k hk => by
          rcases List.mem_append.mp hk with hk | hk
          · exact hdone k hk
          · have hkk : k = k₀ := List.mem_singleton.mp hk
            rw [hkk, hse, he]
            simp [hbre])
      refine ⟨hmain.1, hmain.2.1, ?_⟩
      intro k hk
      apply hmain.2.2
      rw [List.append_assoc, List.singleton_append]
      exact hk
    · rw [hs1]
      have hmemS : k₀ ∈ s.map (fun p => p.1) := by rw [hskeys]; exact hk₀mem
      have hkeys1 : (objSet s k₀ { e with description :=
            ("Entries: " ++ jsJoin ", " (filtNames md (expectedChildCategory e.category k₀))) }).map
              (fun p => p.1) = md.map (fun p => p.1) := by
        rw [objSet_keys_of_mem _ hmemS, hskeys]
      have hfilt1 : ∀ c, filtNames (objSet s k₀ { e with description :=
            ("Entries: " ++ jsJoin ", " (filtNames md (expectedChildCategory e.category k₀))) }) c
          = filtNames md c := by
        intro c
        rw [filtNames_objSet s k₀ e ({ e with description :=
          ("Entries: " ++ jsJoin ", " (filtNames md (expectedChildCategory e.category k₀))) })
          hndS hse rfl c, hfilt]
      have hmain := ih (done ++ [k₀]) md
        (objSet s k₀ { e with description :=
          ("Entries: " ++ jsJoin ", " (filtNames md (expectedChildCategory e.category k₀))) })
        hnd hdoneSplit hkeys1 hfilt1
        (fun k hk => by
          have hkk : k ≠ k₀ := fun hc => hk₀rest (hc ▸ hk)
          rw [objGet_objSet_ne _ _ _ _ hkk]
          exact hl k (List.mem_cons_of_mem _ hk))
        (fun k hk => by
          rcases List.mem_append.mp hk with hk | hk
          · have hkk : k ≠ k₀ := fun hc => hk₀done (hc ▸ hk)
            rw [objGet_objSet_ne _ _ _ _ hkk]
            exact hdone k hk
          · have hkk : k = k₀ := List.mem_singleton.mp hk
            rw [hkk, objGet_objSet_self, he]
            simp [hbre])
      refine ⟨hmain.1, hmain.2.1, ?_⟩
      intro k hk
      apply hmain.2.2
      rw [List.append_assoc, List.singleton_append]
      exact hk

theorem backfill_spec (md : Metadata) (hnd : (md.map (fun p => p.1)).Nodup) :
    (backfill md).map (fun p => p.1) = md.map (fun p => p.1)
    ∧ (∀ c, filtNames (backfill md) c = filtNames md c)
    ∧ (∀ k e, objGet md k = some e →
        objGet (backfill md) k = some (backfillResultEntry md k e))
    ∧ (∀ k, objGet md k = none → objGet (backfill md) k = none) := by
  obtain ⟨h1, h2, h3⟩ := backfill_loop (md.map (fun p => p.1)) [] md md hnd
    (List.nil_append _).symm rfl
    (fun c => rfl) (fun k _ => rfl) (fun k hk => absurd hk (List.not_mem_nil k))
  rw [backfill]
  refine ⟨h1, h2, ?_, ?_⟩
  · intro k e he
    have hmem : k ∈ md.map (fun p => p.1) := mem_keys_of_objGet_eq_some he
    have h4 := h3 k (by simpa using hmem)
    rw [he] at h4
    simpa using h4
  · intro k hk
    apply objGet_eq_none_of_not_mem
    rw [h1]
    intro hc
    obtain ⟨v, hv⟩ := objGet_isSome_of_mem_keys hc
    rw [hk] at hv
    exact Option.noConfusion hv

theorem foldl_fixed {β γ : Type} (f : γ → β → γ) (a : γ) (l : List β)
    (h : ∀ b ∈ l, f a b = a) : l.foldl f a = a := by
  induction l with
  | nil => rfl
  | cons x xs ih =>
    rw [List.foldl_cons, h x (List.mem_cons_self x xs)]
    exact ih (fun b hb => h b (List.mem_cons_of_mem x hb))

/-! ### Invariants of the parse output -/

/-- The key invariant of the metadata map the parser builds: keys are unique
(JS objects cannot hold duplicate keys) and non-empty (the name guard of
processBuffer). -/
def goodKeys (md : Metadata) : Prop :=
  (md.map (fun p => p.1)).Nodup ∧ ∀ k ∈ md.map (fun p => p.1), k ≠ ""

theorem length_pos_of_ne_empty {k : String} (hk : k ≠ "") : 0 < k.length := by
  rcases hs : k.data with _ | ⟨c, cs⟩
  · have : k = "" := String.ext (by simp [hs])
    exact absurd this hk
  · have hlen : k.length = k.data.length := rfl
    rw [hlen, hs]
    simp

/-- No entry can be its own backfill child: the expected child category of
an entry with a non-empty name differs from the entry's own category. -/
theorem category_ne_expectedChild (e : Entry) (k : String) (hk : k ≠ "") :
    e.category ≠ expectedChildCategory e.category k := by
  rw [expectedChildCategory]
  by_cases hc : e.category ≠ ""
  · rw [if_pos hc]
    intro h
    have hlen := congrArg String.length h
    rw [String.length_append, String.length_append] at hlen
    have hkpos := length_pos_of_ne_empty hk
    have h3 : (" > " : String).length = 3 := rfl
    omega
  · rw [if_neg hc]
    push_neg at hc
    rw [hc]
    exact fun h => hk h.symm

theorem goodKeys_objSet {md : Metadata} {k : String} (v : Entry)
    (h : goodKeys md) (hk : k ≠ "") : goodKeys (objSet md k v) := by
  by_cases hm : k ∈ md.map (fun p => p.1)
  · refine ⟨?_, ?_⟩
    · rw [objSet_keys_of_mem v hm]
      exact h.1
    · rw [objSet_keys_of_mem v hm]
      exact h.2
  · refine ⟨?_, ?_⟩
    · rw [objSet_keys_of_not_mem v hm, List.nodup_append]
      exact ⟨h.1, List.nodup_singleton k,
        fun a ha hb => hm (List.mem_singleton.mp hb ▸ ha)⟩
    · intro k' hk'
      rw [objSet_keys_of_not_mem v hm] at hk'
      rcases List.mem_append.mp hk' with h1 | h1
      · exact h.2 k' h1
      · rw [List.mem_singleton.mp h1]
        exact hk

theorem goodKeys_processBuffer {md : Metadata} (buf : List Block) (p : String)
    (h : goodKeys md) : goodKeys (processBuffer md buf p) := by
  rcases hD : dropLeadingPad buf with _ | ⟨b0, rest⟩
  · rw [processBuffer_nil md buf p hD]
    exact h
  · rw [processBuffer_eq md buf p b0 rest hD]
    by_cases hn : b0.text ≠ ""
    · rw [if_pos hn]
      exact goodKeys_objSet _ h hn
    · rw [if_neg hn]
      exact h

theorem goodKeys_lineStep {st : ParseState} (b : Block) (h : goodKeys st.metadata) :
    goodKeys (lineStep st b).metadata := by
  rw [lineStep]
  cases hL : headingLevel b.style with
  | some L =>
    by_cases hb : st.buffer ≠ []
    · rw [if_pos hb]
      exact goodKeys_processBuffer _ _ h
    · rw [if_neg hb]
      exact h
  | none =>
    by_cases hblank : b.text = "" ∧ b.imageUrl = none
    · rw [if_pos hblank]
      by_cases hb : st.buffer ≠ []
      · rw [if_pos hb]
        exact goodKeys_processBuffer _ _ h
      · rw [if_neg hb]
        exact h
    · rw [if_neg hblank]
      exact h

theorem goodKeys_foldl (blocks : List Block) : ∀ (st : ParseState),
    goodKeys st.metadata → goodKeys (blocks.foldl lineStep st).metadata := by
  induction blocks with
  | nil =>
    intro st h
    exact h
  | cons b rest ih =>
    intro st h
    rw [List.foldl_cons]
    exact ih _ (goodKeys_lineStep b h)

theorem goodKeys_parseLines (blocks : List Block) : goodKeys (parseLines blocks) := by
  rw [parseLines]
  have h0 : goodKeys (⟨[], [], [], ""⟩ : ParseState).metadata := ⟨List.nodup_nil, by simp⟩
  have h := goodKeys_foldl blocks ⟨[], [], [], ""⟩ h0
  by_cases hb : (blocks.foldl lineStep ⟨[], [], [], ""⟩).buffer ≠ []
  · rw [if_pos hb]
    exact goodKeys_processBuffer _ _ h
  · rw [if_neg hb]
    exact h

/-! ### Image resolution characterization -/

theorem bufEntry_imageUrl_def (b0 : Block) (rest : List Block) (p : String) :
    (bufEntry b0 rest p).imageUrl
      = (scanLoop (if descOf rest ≠ "" then rest.tail else rest) []
          (if b0.imageUrl = none then
            (match rest with | [] => none | b1 :: _ => b1.imageUrl)
           else b0.imageUrl)).2 := rfl

theorem bufEntry_properties_def (b0 : Block) (rest : List Block) (p : String) :
    (bufEntry b0 rest p).properties
      = (scanLoop (if descOf rest ≠ "" then rest.tail else rest) []
          (if b0.imageUrl = none then
            (match rest with | [] => none | b1 :: _ => b1.imageUrl)
           else b0.imageUrl)).1 := rfl

theorem bufEntry_imageUrl (b0 : Block) (rest : List Block) (p : String) :
    (bufEntry b0 rest p).imageUrl = claimImage b0 rest := by
  rw [bufEntry_imageUrl_def, scanLoop_img, claimImage]
  rcases hb0 : b0.imageUrl with _ | u
  · by_cases hd : descOf rest ≠ ""
    · rcases rest with _ | ⟨b1, r2⟩
      · simp [descOf] at hd
      · rw [if_pos hd, if_pos hd]
        rcases hb1 : b1.imageUrl with _ | i
        · simp [firstImage, hb0, hb1]
        · simp [firstImage, hb0, hb1]
    · rw [if_neg hd, if_neg hd]
      rcases rest with _ | ⟨b1, r2⟩
      · simp [firstImage, hb0, stopScanTake, scanLoop]
      · rcases hb1 : b1.imageUrl with _ | i
        · by_cases hst : startsWithUnderscore b1.text = true <;>
            simp [stopScanTake, hst, firstImage, hb0, hb1]
        · by_cases hst : startsWithUnderscore b1.text = true <;>
            simp [stopScanTake, hst, firstImage, hb0, hb1]
  · simp [firstImage, hb0]

/-! ### Claim theorems -/

/-- C1: for every buffer flushed by the parser, leading blocks whose text is
empty and that carry no image are discarded first; if nothing remains no
entry is produced; otherwise the first remaining block's text is the entry
name, and if that name is the empty string no entry is produced. -/
theorem flushDiscardAndName (md : Metadata) (buf : List Block) (p : String) :
    (∃ pad, buf = pad ++ dropLeadingPad buf ∧ ∀ b ∈ pad, b.text = "" ∧ b.imageUrl = none)
    ∧ (dropLeadingPad buf = [] → processBuffer md buf p = md)
    ∧ (∀ b0 rest, dropLeadingPad buf = b0 :: rest →
        (¬ (b0.text = "" ∧ b0.imageUrl = none))
        ∧ (b0.text = "" → processBuffer md buf p = md)
        ∧ (b0.text ≠ "" → ∃ e, processBuffer md buf p = objSet md b0.text e)) := by
  refine ⟨dropLeadingPad_decomp buf, fun h => processBuffer_nil md buf p h, ?_⟩
  intro b0 rest h
  refine ⟨dropLeadingPad_head h, fun hz => ?_, fun hn => ?_⟩
  · rw [processBuffer_eq md buf p b0 rest h, if_neg (fun hc => hc hz)]
  · exact ⟨bufEntry b0 rest p, by rw [processBuffer_eq md buf p b0 rest h, if_pos hn]⟩

theorem flushDiscardAndNameW :
    ∃ e, processBuffer [] [⟨"", "NORMAL_TEXT", none⟩, ⟨"Alpha", "NORMAL_TEXT", none⟩] ""
      = objSet [] "Alpha" e := by
  have h := flushDiscardAndName []
    [⟨"", "NORMAL_TEXT", none⟩, ⟨"Alpha", "NORMAL_TEXT", none⟩] ""
  exact (h.2.2 ⟨"Alpha", "NORMAL_TEXT", none⟩ [] (by decide)).2.2 (by decide)

/-- C4 counterexample: the claim predicts that a stop-marker block is never
checked for an image, so for the buffer with name block N and a stop-marker
second block carrying image I the claimed resolution yields no image; the
code stores image I for the entry. -/
theorem imageScanClaimFalse :
    (objGet (processBuffer []
        [⟨"N", "NORMAL_TEXT", none⟩, ⟨"_x", "NORMAL_TEXT", some "I"⟩] "") "N").map
        (fun e => e.imageUrl)
      ≠ some (claimImageOrig ⟨"N", "NORMAL_TEXT", none⟩ [⟨"_x", "NORMAL_TEXT", some "I"⟩]) := by
  decide

/-- C4 (amended): for every flushed buffer, the entry's image reference is
the first non-null imageRef found by scanning the first block, then (only if
a description block was consumed) the second block, then the property-scan
blocks in order — where a block whose text starts with an underscore stops
the scan but is itself still checked for an image before the scan stops; the
first image found wins. -/
theorem imageScanAmended (md : Metadata) (buf : List Block) (p : String)
    (b0 : Block) (rest : List Block)
    (h : dropLeadingPad buf = b0 :: rest) (hn : b0.text ≠ "") :
    ∃ e, objGet (processBuffer md buf p) b0.text = some e
      ∧ e.imageUrl = claimImage b0 rest := by
  refine ⟨bufEntry b0 rest p, ?_, bufEntry_imageUrl b0 rest p⟩
  rw [processBuffer_eq md buf p b0 rest h, if_pos hn]
  exact objGet_objSet_self md b0.text _

theorem imageScanAmendedW :
    ∃ e, objGet (processBuffer []
        [⟨"N", "NORMAL_TEXT", none⟩, ⟨"_x", "NORMAL_TEXT", some "I"⟩] "") "N" = some e
      ∧ e.imageUrl = claimImage ⟨"N", "NORMAL_TEXT", none⟩ [⟨"_x", "NORMAL_TEXT", some "I"⟩] :=
  imageScanAmended [] [⟨"N", "NORMAL_TEXT", none⟩, ⟨"_x", "NORMAL_TEXT", some "I"⟩] ""
    ⟨"N", "NORMAL_TEXT", none⟩ [⟨"_x", "NORMAL_TEXT", some "I"⟩] (by decide) (by decide)

/-- C5: once the property scan reaches a line whose text starts with an
underscore, property collection halts: the entry's properties are computed
from the scan blocks strictly before the stop marker alone, so no line
after the stop marker is ever added, even if it contains a colon. -/
theorem stopMarkerHaltsProps (md : Metadata) (buf : List Block) (p : String)
    (b0 : Block) (rest pre post : List Block) (stopB : Block)
    (h : dropLeadingPad buf = b0 :: rest) (hn : b0.text ≠ "")
    (hsplit : (if descOf rest ≠ "" then rest.tail else rest) = pre ++ stopB :: post)
    (hpre : ∀ b ∈ pre, startsWithUnderscore b.text = false)
    (hstop : startsWithUnderscore stopB.text = true) :
    ∃ e, objGet (processBuffer md buf p) b0.text = some e
      ∧ e.properties = pre.foldl propStep [] := by
  refine ⟨bufEntry b0 rest p, ?_, ?_⟩
  · rw [processBuffer_eq md buf p b0 rest h, if_pos hn]
    exact objGet_objSet_self md b0.text _
  · rw [bufEntry_properties_def, scanLoop_props, hsplit,
      takeWhile_all_append _ pre stopB post (fun b hb => by simp [hpre b hb])
        (by simp [hstop])]

theorem stopMarkerHaltsPropsW :
    ∃ e, objGet (processBuffer []
        [⟨"N", "NORMAL_TEXT", none⟩, ⟨"a: 1", "NORMAL_TEXT", none⟩,
         ⟨"_stop", "NORMAL_TEXT", none⟩, ⟨"b: 2", "NORMAL_TEXT", none⟩] "") "N" = some e
      ∧ e.properties = [⟨"a: 1", "NORMAL_TEXT", none⟩].foldl propStep [] := by
  have h := stopMarkerHaltsProps []
    [⟨"N", "NORMAL_TEXT", none⟩, ⟨"a: 1", "NORMAL_TEXT", none⟩,
     ⟨"_stop", "NORMAL_TEXT", none⟩, ⟨"b: 2", "NORMAL_TEXT", none⟩] ""
    ⟨"N", "NORMAL_TEXT", none⟩
    [⟨"a: 1", "NORMAL_TEXT", none⟩, ⟨"_stop", "NORMAL_TEXT", none⟩, ⟨"b: 2", "NORMAL_TEXT", none⟩]
    [⟨"a: 1", "NORMAL_TEXT", none⟩] [⟨"b: 2", "NORMAL_TEXT", none⟩]
    ⟨"_stop", "NORMAL_TEXT", none⟩
    (by decide) (by decide) (by decide) (by decide) (by decide)
  exact h

/-- C6: a property-scan line containing a colon is split only on the first
colon with both sides trimmed, recorded only when both key and value are
non-empty, a later duplicate key in the same buffer overwriting the earlier
value; in particular the line with value containing further colons keeps
them in the value. -/
theorem propertyFirstColonSplit (props : List (String × String)) (line : String)
    (hc : line.data.contains ':' = true) :
    parseProp line
      = (if jsTrim (String.mk (line.data.takeWhile (fun x => x != ':'))) ≠ ""
            ∧ jsTrim (String.mk ((line.data.dropWhile (fun x => x != ':')).tail)) ≠ "" then
          some (jsTrim (String.mk (line.data.takeWhile (fun x => x != ':'))),
                jsTrim (String.mk ((line.data.dropWhile (fun x => x != ':')).tail)))
         else none)
    ∧ (∀ k v, objGet (objSet props k v) k = some v)
    ∧ parseProp "url: http://x:8080" = some ("url", "http://x:8080") := by
  refine ⟨?_, fun k v => objGet_objSet_self props k v, by decide⟩
  rw [parseProp, if_pos hc]
  rcases hS : splitChars ':' line.data with _ | ⟨p0, restParts⟩
  · exact absurd hS (splitChars_ne_nil ':' line.data)
  · have hhead := splitChars_head ':' line.data
    rw [hS, List.head?_cons, Option.some.injEq] at hhead
    have htail := joinChars_splitChars_tail ':' line.data (contains_iff_mem.mp hc)
    rw [hS, List.tail_cons] at htail
    subst hhead
    rw [← htail]
    rfl

theorem propertyFirstColonSplitW :
    parseProp "url: http://x:8080" = some ("url", "http://x:8080") := by
  have h := propertyFirstColonSplit [] "url: http://x:8080" (by decide)
  exact h.2.2

/-- The heading-nesting example block sequence of the spec: H1 A, H2 B, a
normal block x, H1 C, a normal block y. -/
def exHeadingBlocks : List Block :=
  [⟨"A", "HEADING_1", none⟩, ⟨"B", "HEADING_2", none⟩, ⟨"x", "NORMAL_TEXT", none⟩,
   ⟨"C", "HEADING_1", none⟩, ⟨"y", "NORMAL_TEXT", none⟩]

/-- The backfill example map of the spec. -/
def exBackfillMap : Metadata :=
  [("A", ⟨"", [], "", none⟩), ("B", ⟨"d", [], "A", none⟩), ("C", ⟨"", [], "A", none⟩)]

/-- C2: a heading block at level L sets the current path to the joined
titles of heading-stack levels up to L-1 (its own ancestors, not itself),
and recording its title truncates the stack to length L; with blocks H1 A,
H2 B, normal x, the entry for B has category A, and after a subsequent H1 C
the entry under it has category empty. -/
theorem headingCategoryStack (st : ParseState) (b : Block) (L : Nat)
    (hL : headingLevel b.style = some L) (h1 : 1 ≤ L) :
    ((lineStep st b).currentPath = jsJoin " > " (st.headingStack.take (L - 1))
      ∧ (lineStep st b).headingStack
          = ((st.headingStack ++ List.replicate L "").take (L - 1)) ++ [b.text]
      ∧ (lineStep st b).headingStack.length = L)
    ∧ (objGet (parseBodyContent exHeadingBlocks) "B").map Entry.category = some "A"
    ∧ (objGet (parseBodyContent exHeadingBlocks) "C").map Entry.category = some "" := by
  have hL0 : ¬ L = 0 := by omega
  refine ⟨⟨?_, ?_, ?_⟩, by decide, by decide⟩
  · simp only [lineStep, hL]
    rw [if_neg hL0]
  · simp only [lineStep, hL]
    rw [if_neg hL0]
  · simp only [lineStep, hL]
    rw [if_neg hL0]
    simp only [List.length_append, List.length_take, List.length_replicate,
      List.length_singleton]
    omega

theorem headingCategoryStackW :
    (lineStep ⟨[], [], ["A"], ""⟩ ⟨"B", "HEADING_2", none⟩).currentPath
        = jsJoin " > " (["A"].take 1)
      ∧ (lineStep ⟨[], [], ["A"], ""⟩ ⟨"B", "HEADING_2", none⟩).headingStack.length = 2 := by
  have h := headingCategoryStack ⟨[], [], ["A"], ""⟩ ⟨"B", "HEADING_2", none⟩ 2
    (by decide) (by decide)
  exact ⟨h.1.1, h.1.2.2⟩

/-- C3: after the backfill pass, an entry of the parse whose description is
empty or whitespace-only and for which some other entry's category equals
its expected child category gets the description Entries followed by the
comma-joined child names in map order; entries with a non-empty description
or with no exact-match children keep their description; in the spec's
example, the description of A becomes the list of B and C. -/
theorem backfillChildrenDescription (blocks : List Block) (k : String) (e : Entry)
    (he : objGet (parseLines blocks) k = some e) :
    (descEmpty e.description = true →
      (∃ k2 e2, k2 ≠ k ∧ objGet (parseLines blocks) k2 = some e2
        ∧ e2.category = expectedChildCategory e.category k) →
      objGet (parseBodyContent blocks) k
        = some { e with description :=
            ("Entries: " ++ jsJoin ", "
              (filtNames (parseLines blocks) (expectedChildCategory e.category k))) })
    ∧ (descEmpty e.description = false → objGet (parseBodyContent blocks) k = some e)
    ∧ ((¬ ∃ k2 e2, k2 ≠ k ∧ objGet (parseLines blocks) k2 = some e2
          ∧ e2.category = expectedChildCategory e.category k) →
        objGet (parseBodyContent blocks) k = some e)
    ∧ (objGet (backfill exBackfillMap) "A").map Entry.description
        = some "Entries: B, C" := by
  have hgood := goodKeys_parseLines blocks
  have hspec := backfill_spec (parseLines blocks) hgood.1
  have hmain := hspec.2.2.1 k e he
  have hkne : k ≠ "" := hgood.2 k (mem_keys_of_objGet_eq_some he)
  refine ⟨?_, ?_, ?_, by decide⟩
  · intro hde hex
    rcases hex with ⟨k2, e2, hk2ne, hk2get, hk2cat⟩
    have hmem : k2 ∈ filtNames (parseLines blocks) (expectedChildCategory e.category k) := by
      rw [filtNames]
      exact List.mem_map.mpr ⟨(k2, e2),
        List.mem_filter.mpr ⟨objGet_eq_some_mem hk2get, by simp [hk2cat]⟩, rfl⟩
    have hne := List.ne_nil_of_mem hmem
    rw [parseBodyContent, hmain, backfillResultEntry, if_pos ⟨hde, hne⟩]
  · intro hde
    rw [parseBodyContent, hmain, backfillResultEntry, if_neg]
    intro hcon
    rw [hde] at hcon
    exact Bool.false_ne_true hcon.1
  · intro hnex
    have hch : filtNames (parseLines blocks) (expectedChildCategory e.category k) = [] := by
      by_contra hne
      rcases List.exists_mem_of_ne_nil _ hne with ⟨n, hn⟩
      rw [filtNames] at hn
      rcases List.mem_map.mp hn with ⟨⟨k2, e2⟩, hpair, hfst⟩
      have hfil := List.mem_filter.mp hpair
      have hcat : e2.category = expectedChildCategory e.category k := by
        simpa using hfil.2
      have hget : objGet (parseLines blocks) k2 = some e2 :=
        objGet_fst_of_mem_nodup hfil.1 hgood.1
      have hk2ne : k2 ≠ k := by
        intro hkk
        rw [hkk, he] at hget
        have he2 : e = e2 := Option.some.inj hget
        rw [← he2] at hcat
        exact category_ne_expectedChild e k hkne hcat
      exact hnex ⟨k2, e2, hk2ne, hget, hcat⟩
    rw [parseBodyContent, hmain, backfillResultEntry, if_neg]
    intro hcon
    exact hcon.2 hch

theorem backfillChildrenDescriptionW :
    objGet (parseBodyContent exHeadingBlocks) "A"
      = some { (⟨"", [], "", none⟩ : Entry) with description :=
          ("Entries: " ++ jsJoin ", " (filtNames (parseLines exHeadingBlocks)
            (expectedChildCategory "" "A"))) } := by
  have h := backfillChildrenDescription exHeadingBlocks "A" ⟨"", [], "", none⟩ (by decide)
  exact h.1 (by decide) ⟨"B", ⟨"x", [], "A", none⟩, by decide, by decide, by decide⟩

/-- C7: the backfill pass is idempotent on every entry map with unique keys:
running it twice yields exactly the map obtained from one run. -/
theorem backfillIdempotent (md : Metadata) (hnd : (md.map (fun p => p.1)).Nodup) :
    backfill (backfill md) = backfill md := by
  have hspec := backfill_spec md hnd
  have hfix : ∀ k ∈ md.map (fun p => p.1), backfillStep (backfill md) k = backfill md := by
    intro k hk
    obtain ⟨e, he⟩ := objGet_isSome_of_mem_keys hk
    have hMk := hspec.2.2.1 k e he
    by_cases hcond : descEmpty e.description = true
        ∧ filtNames md (expectedChildCategory e.category k) ≠ []
    · have hE : backfillResultEntry md k e = { e with description :=
          ("Entries: " ++ jsJoin ", " (filtNames md (expectedChildCategory e.category k))) } := by
        rw [backfillResultEntry, if_pos hcond]
      rw [hE] at hMk
      simp only [backfillStep, hMk]
      rw [if_neg]
      simp [descEmpty_entries]
    · have hE : backfillResultEntry md k e = e := by
        rw [backfillResultEntry, if_neg hcond]
      rw [hE] at hMk
      simp only [backfillStep, hMk]
      by_cases hde : descEmpty e.description = true
      · have hch : filtNames md (expectedChildCategory e.category k) = [] := by
          by_contra hne
          exact hcond ⟨hde, hne⟩
        have hchM : filtNames (backfill md) (expectedChildCategory e.category k) = [] := by
          rw [hspec.2.1, hch]
        rw [if_pos hde, hchM]
        simp
      · rw [if_neg hde]
  conv_lhs => rw [backfill]
  rw [hspec.1]
  exact foldl_fixed backfillStep (backfill md) (md.map (fun p => p.1)) hfix

theorem backfillIdempotentW :
    backfill (backfill exBackfillMap) = backfill exBackfillMap :=
  backfillIdempotent exBackfillMap (by decide)

/-- C8: each of the backward and forward sibling walks of the context
extractor accumulates only siblings whose trimmed text is non-empty,
skipping empty-text siblings without counting them against the limit, and
always halts after at most 100 traversal steps regardless of the limit;
with preceding siblings of two empty texts then hello and limit 1, the
accumulated text is hello and the backward walk consumes all three
siblings before stopping. -/
theorem contextWalkBounds (prevs nexts : List String) (limit : Nat) :
    (lookBack prevs limit 0 0 "").steps ≤ 100
    ∧ (lookBack prevs limit 0 0 "").text
        = ((prevs.take (lookBack prevs limit 0 0 "").steps).filter keepTxt).foldl
            (fun a t => t ++ " " ++ a) ""
    ∧ (lookBack prevs limit 0 0 "").count
        = ((prevs.take (lookBack prevs limit 0 0 "").steps).filter keepTxt).length
    ∧ (lookBack prevs limit 0 0 "").count ≤ limit
    ∧ (lookFwd nexts limit 0 0 "").steps ≤ 100
    ∧ (lookFwd nexts limit 0 0 "").text
        = ((nexts.take (lookFwd nexts limit 0 0 "").steps).filter keepTxt).foldl
            (fun a t => a ++ " " ++ t) ""
    ∧ (lookFwd nexts limit 0 0 "").count
        = ((nexts.take (lookFwd nexts limit 0 0 "").steps).filter keepTxt).length
    ∧ (lookFwd nexts limit 0 0 "").count ≤ limit
    ∧ lookBack ["", "", "hello"] 1 0 0 "" = ⟨"hello ", 1, 3⟩ := by
  obtain ⟨b1, b2, b3, b4, b5, b6⟩ := lookBack_spec prevs limit 0 0 ""
  obtain ⟨f1, f2, f3, f4, f5, f6⟩ := lookFwd_spec nexts limit 0 0 ""
  refine ⟨b3 (by omega), by simpa using b6, by simpa using b4, b5 (by omega),
    f3 (by omega), by simpa using f6, by simpa using f4, f5 (by omega), by decide⟩

/-- C9: the backfill pass changes only description fields: keys are
preserved with their order (no entry added or removed), and every entry's
properties, category and image reference are identical before and after. -/
theorem backfillFrame (md : Metadata) (hnd : (md.map (fun p => p.1)).Nodup) :
    (backfill md).map (fun p => p.1) = md.map (fun p => p.1)
    ∧ (∀ k e, objGet md k = some e → ∃ e2, objGet (backfill md) k = some e2
        ∧ e2.properties = e.properties ∧ e2.category = e.category
        ∧ e2.imageUrl = e.imageUrl) := by
  obtain ⟨h1, h2, h3, h4⟩ := backfill_spec md hnd
  refine ⟨h1, ?_⟩
  intro k e he
  refine ⟨backfillResultEntry md k e, h3 k e he, ?_, ?_, ?_⟩
  all_goals
    rw [backfillResultEntry]
    split
    all_goals rfl

theorem backfillFrameW :
    ∃ e2, objGet (backfill exBackfillMap) "A" = some e2
      ∧ e2.properties = ([] : List (String × String)) ∧ e2.category = ""
      ∧ e2.imageUrl = none := by
  have h := backfillFrame exBackfillMap (by decide)
  exact h.2 "A" ⟨"", [], "", none⟩ (by decide)

/-- C10: when a selection is present the context extractor derives the core
text, start block and end block from the selection's range elements and
ignores the cursor entirely; the cursor is consulted only when no selection
exists. -/
theorem selectionOverCursor (els : List DElement) (cur curA curB : Option DElement) :
    resolvePosition (some els) curA = resolvePosition (some els) curB
    ∧ resolvePosition (some els) cur
        = (els.foldl rangeElemText "",
           (match els with | [] => none | e :: _ => e.getBlockParent),
           (match els.getLast? with | none => none | some e => e.getBlockParent))
    ∧ (∀ c, resolvePosition none (some c)
        = (getTextSafe c.getBlockParent, c.getBlockParent, c.getBlockParent))
    ∧ resolvePosition (some [⟨ElemKind.paragraph, "sel", []⟩])
        (some ⟨ElemKind.paragraph, "cur", []⟩)
      = ("sel ", some (ElemKind.paragraph, "sel"), some (ElemKind.paragraph, "sel")) := by
  exact ⟨rfl, rfl, fun c => rfl, by decide⟩

end StickyRolo
